import Mathlib

/-!
Verification of the inference and merge engine of `helm-values-schema-json`
(`pkg/generator.go`).  The Go data types are shallowly embedded as mutual
inductive types; the functions of `generator.go` are translated directly,
and the helper functions that the repository keeps in other files
(`parseNode`, `mergeSchemas`, `uniqueStringAppend`, `getSchemaURL`, the
materializer) are modelled from the specification, each marked by a doc
comment starting with `Modelled from the spec:`.
-/

set_option autoImplicit false

namespace HelmSchema

/-! ## YAML values

A parsed YAML document tree, as delivered by the YAML collaborator.
Scalars carry their tag-relevant payload (only the tag matters for type
inference, so the float payload is omitted).  Mappings are ordered lists of
key/value pairs (YAML mappings are ordered in `yaml.v3` node form and may,
at the node level, contain repeated keys). -/

mutual

inductive Yaml : Type where
  | str (s : String)
  | intv (n : Int)
  | floatv
  | boolv (b : Bool)
  | null
  | map (m : YamlMap)
  | seq (s : YamlSeq)

inductive YamlMap : Type where
  | nil
  | cons (key : String) (val : Yaml) (rest : YamlMap)

inductive YamlSeq : Type where
  | nil
  | cons (val : Yaml) (rest : YamlSeq)

end

/-- The key/value pairs of a YAML mapping, as a plain list. -/
def YamlMap.toList : YamlMap → List (String × Yaml)
  | .nil => []
  | .cons k v rest => (k, v) :: rest.toList

/-- The keys of a YAML mapping, in document order. -/
def YamlMap.keys : YamlMap → List String
  | .nil => []
  | .cons k _ rest => k :: rest.keys

/-! ## Schema fragments

The Go type `Schema` from the repository: `Type string`,
`Properties map[string]*Schema`, `Items *Schema`, `Required []string`,
`Title`, `Description`, `ID string`, `AdditionalProperties *bool`.
`Properties` is embedded as an ordered association list whose entries may
be `nil` (`OSchema.none`), mirroring `map[string]*Schema` with nil
pointers; `Items` and `AdditionalProperties` are nilable pointers, hence
`OSchema` / `Option Bool`. -/

mutual

inductive Schema : Type where
  | mk (type : String) (properties : Props) (items : OSchema)
      (required : List String) (title descr idv : String)
      (additionalProperties : Option Bool)

inductive OSchema : Type where
  | none
  | some (s : Schema)

inductive Props : Type where
  | nil
  | cons (key : String) (child : OSchema) (rest : Props)

end

def Schema.type : Schema → String
  | .mk t _ _ _ _ _ _ _ => t

def Schema.properties : Schema → Props
  | .mk _ p _ _ _ _ _ _ => p

def Schema.items : Schema → OSchema
  | .mk _ _ i _ _ _ _ _ => i

def Schema.required : Schema → List String
  | .mk _ _ _ r _ _ _ _ => r

def Schema.title : Schema → String
  | .mk _ _ _ _ ti _ _ _ => ti

def Schema.descr : Schema → String
  | .mk _ _ _ _ _ d _ _ => d

def Schema.idv : Schema → String
  | .mk _ _ _ _ _ _ i _ => i

def Schema.additionalProperties : Schema → Option Bool
  | .mk _ _ _ _ _ _ _ ap => ap

/-- The zero value `Schema{}` of Go: every field empty/nil. -/
def Schema.empty : Schema :=
  .mk "" .nil .none [] "" "" "" none

/-- Whether a fragment is the Go zero value `Schema{}`: every field is
empty or nil. -/
def Schema.isEmpty : Schema → Bool
  | .mk t p i r ti d iv ap =>
      (t == "") &&
        (match p with | .nil => true | .cons _ _ _ => false) &&
        (match i with | .none => true | .some _ => false) &&
        r.isEmpty && (ti == "") && (d == "") && (iv == "") && ap.isNone

/-- Replace only the `Required` field (Go: `mergedSchema.Required = ...`). -/
def Schema.withRequired : Schema → List String → Schema
  | .mk t p i _ ti d iv ap, r => .mk t p i r ti d iv ap

/-- Replace only the `AdditionalProperties` field
(Go: `mergedSchema.AdditionalProperties = &v`). -/
def Schema.withAP : Schema → Option Bool → Schema
  | .mk t p i r ti d iv _, ap => .mk t p i r ti d iv ap

/-- The `Option Schema` view of a nilable schema pointer. -/
def OSchema.toOption : OSchema → Option Schema
  | .none => Option.none
  | .some s => Option.some s

/-- First entry stored under a key, if any (`m[k]` lookup of the Go map;
the result distinguishes an absent key from a key bound to a nil pointer). -/
def Props.find? : Props → String → Option OSchema
  | .nil, _ => Option.none
  | .cons k c rest, key => if k = key then Option.some c else rest.find? key

/-- Go map assignment `m[k] = c`: replace the entry in place if the key is
present, else append it (association lists keep first-seen key order). -/
def Props.setOrAppend : Props → String → OSchema → Props
  | .nil, key, c => .cons key c .nil
  | .cons k c' rest, key, c =>
      if k = key then .cons k c rest else .cons k c' (rest.setOrAppend key c)

/-- The keys of a properties map, in stored (first-seen) order. -/
def Props.keys : Props → List String
  | .nil => []
  | .cons k _ rest => k :: rest.keys

/-! ## The Additional-Properties Propagator (`setAdditionalProperties`)

Direct translation of `setAdditionalProperties` from `pkg/generator.go`:
set the field if the node's type is `"object"`; recurse into every non-nil
child of `Properties`; if `Items` is non-nil, recurse into every non-nil
child of `Items.Properties` (the `Items` node itself is never passed to the
recursion; its other fields, including its own `Items`, are untouched). -/

mutual

def setAdditionalProperties (value : Bool) : Schema → Schema
  | .mk t props items req ti d iv ap =>
      .mk t (setAPProps value props)
        (match items with
          | .none => .none
          | .some (.mk t' props' items' req' ti' d' iv' ap') =>
              .some (.mk t' (setAPProps value props') items' req' ti' d' iv' ap'))
        req ti d iv
        (if t = "object" then some value else ap)

def setAPProps (value : Bool) : Props → Props
  | .nil => .nil
  | .cons k c rest => .cons k (setAPChild value c) (setAPProps value rest)

def setAPChild (value : Bool) : OSchema → OSchema
  | .none => .none
  | .some s => .some (setAdditionalProperties value s)

end

/-! ## The Node Inferencer (`parseNode`) -/

/-!
Modelled from the spec: `parseNode` is not part of `pkg/generator.go`;
section 4.1 of the specification defines it.  Scalars get their type from
the YAML tag (`string`, `integer`, float to `number`, `boolean`, `null`);
a mapping gets type `object` with `properties`/`required` built from its
pairs; a sequence gets type `array` with `items` inferred from its first
element (absent for an empty sequence).  `isRequired` is true exactly for
a non-null value.  The mapping loop mirrors lines 60-68 of `generator.go`:
`properties[key] = schema` (map assignment, later duplicate keys overwrite
the stored child in place) and `required = append(required, key)` for each
required pair, in document order.
-/
mutual

def parseNode : Yaml → Schema × Bool
  | .str _ => (.mk "string" .nil .none [] "" "" "" none, true)
  | .intv _ => (.mk "integer" .nil .none [] "" "" "" none, true)
  | .floatv => (.mk "number" .nil .none [] "" "" "" none, true)
  | .boolv _ => (.mk "boolean" .nil .none [] "" "" "" none, true)
  | .null => (.mk "null" .nil .none [] "" "" "" none, false)
  | .map m =>
      let pr := parseMapAux .nil [] m
      (.mk "object" pr.1 .none pr.2 "" "" "" none, true)
  | .seq s =>
      (.mk "array" .nil (parseSeqItems s) [] "" "" "" none, true)

def parseMapAux : Props → List String → YamlMap → Props × List String
  | props, req, .nil => (props, req)
  | props, req, .cons k v rest =>
      let sb := parseNode v
      parseMapAux (props.setOrAppend k (.some sb.1))
        (if sb.2 then req ++ [k] else req) rest

def parseSeqItems : YamlSeq → OSchema
  | .nil => .none
  | .cons v _ => .some (parseNode v).1

end

/-- The properties map and required list inferred from a root mapping
(lines 56-68 of `generator.go`, starting from an empty map and list). -/
def parseMap (m : YamlMap) : Props × List String :=
  parseMapAux .nil [] m

/-! ## Merging -/

/-- Modelled from the spec: `uniqueStringAppend` is not part of
`pkg/generator.go`; the specification describes it as appending strings to
a base list as a deduplicated union preserving first-seen order. -/
def uniqueStringAppend (base : List String) (extra : List String) : List String :=
  extra.foldl (fun acc x => if x ∈ acc then acc else acc ++ [x]) base

/-!
Modelled from the spec: `mergeSchemas` is not part of `pkg/generator.go`;
section 4.2 of the specification defines it.  If the base is the empty
(zero) fragment the result is the incoming fragment; if both fragments are
object-typed, the properties maps are unioned with a recursive merge on
key collision (colliding keys keep their base position, new keys are
appended in incoming order), `required` is the deduplicated first-seen
union, and the remaining fields are taken from the incoming fragment
(last-write-wins); otherwise the incoming fragment wins.
-/
mutual

def mergeSchemas : Schema → Schema → Schema
  | base, .mk t p i r ti d iv ap =>
      if base.isEmpty then .mk t p i r ti d iv ap
      else if base.type = "object" ∧ t = "object" then
        .mk "object" (mergeProps base.properties p) i
          (uniqueStringAppend base.required r) ti d iv ap
      else .mk t p i r ti d iv ap

def mergeProps : Props → Props → Props
  | bp, .nil => bp
  | bp, .cons k c rest =>
      let c' := match bp.find? k with
        | Option.none => c
        | Option.some existing => mergeChild existing c
      mergeProps (bp.setOrAppend k c') rest

def mergeChild : OSchema → OSchema → OSchema
  | .none, c => c
  | .some b, .none => .some b
  | .some b, .some c => .some (mergeSchemas b c)

end

/-! ## Configuration -/

/-- The `SchemaRoot` part of the configuration: root metadata plus the
root-only `additionalProperties` policy (Go: a three-state boolean with
`IsSet`/`Value`, embedded as `Option Bool`). -/
structure SchemaRootConfig where
  title : String
  descr : String
  idv : String
  additionalProperties : Option Bool

/-- The `SchemaAll` part of the configuration: the apply-to-all-levels
`additionalProperties` policy. -/
structure SchemaAllConfig where
  additionalProperties : Option Bool

/-- The configuration record consumed by `GenerateJsonSchema`. -/
structure Config where
  input : List String
  outputPath : String
  draft : Int
  indent : Int
  schemaRoot : SchemaRootConfig
  schemaAll : SchemaAllConfig

/-- Modelled from the spec: `getSchemaURL` is not part of
`pkg/generator.go`; the specification describes a fixed lookup table from
the configured draft identifier to the `$schema` URL, with an unrecognized
identifier a hard error.  The entries are the JSON Schema drafts the tool
supports. -/
def getSchemaURL (draft : Int) : Except String String :=
  if draft = 4 then .ok "http://json-schema.org/draft-04/schema#"
  else if draft = 6 then .ok "http://json-schema.org/draft-06/schema#"
  else if draft = 7 then .ok "http://json-schema.org/draft-07/schema#"
  else if draft = 2019 then .ok "https://json-schema.org/draft/2019-09/schema"
  else if draft = 2020 then .ok "https://json-schema.org/draft/2020-12/schema"
  else .error "invalid draft version"

/-! ## The per-file loop (lines 41-83 of `generator.go`) -/

/-- The outcome of fetching and YAML-parsing one input file, as seen by
the loop body: `getFileContent` failed, `yaml.Unmarshal` failed, the
document has no root content (`len(node.Content) == 0`), or a parsed root
mapping node. -/
inductive FileInput : Type where
  | unreadable
  | malformed
  | emptyDoc
  | doc (root : YamlMap)

/-- The temporary per-file fragment of lines 71-78 of `generator.go`: an
object fragment holding the inferred properties and required list plus the
configured root metadata. -/
def tempOf (cfg : Config) (root : YamlMap) : Schema :=
  .mk "object" (parseMap root).1 .none (parseMap root).2
    cfg.schemaRoot.title cfg.schemaRoot.descr cfg.schemaRoot.idv none

/-- One iteration of the input loop (lines 42-82 of `generator.go`):
fail the run on a read error or YAML error, skip an empty document, and
otherwise infer the per-file fragment, stamp the configured root metadata
on it, merge it into the aggregate, and re-union the required list. -/
def processFile (cfg : Config) (acc : Schema) : FileInput → Except String Schema
  | .unreadable => .error "error reading YAML file(s)"
  | .malformed => .error "error unmarshaling YAML"
  | .emptyDoc => .ok acc
  | .doc root =>
      let merged := mergeSchemas acc (tempOf cfg root)
      .ok (merged.withRequired (uniqueStringAppend merged.required (parseMap root).2))

/-- The input loop folded over the (file name, fetched content) pairs.
The file name never influences the loop body: the two per-file errors are
the constant strings of lines 44 and 49 of `generator.go`. -/
def runFiles (cfg : Config) : Schema → List (String × FileInput) → Except String Schema
  | acc, [] => .ok acc
  | acc, (_, fi) :: rest =>
      match processFile cfg acc fi with
      | .error e => .error e
      | .ok acc' => runFiles cfg acc' rest

/-! ## The additionalProperties policies (lines 85-91) -/

/-- Lines 85-91 of `generator.go`: the root-only policy is written to the
merged fragment's field first, then the recursive policy walks the tree. -/
def applyAPPolicies (cfg : Config) (s : Schema) : Schema :=
  let s1 := match cfg.schemaRoot.additionalProperties with
    | Option.some b => s.withAP (some b)
    | Option.none => s
  match cfg.schemaAll.additionalProperties with
  | Option.some b => setAdditionalProperties b s1
  | Option.none => s1

/-! ## The full pipeline -/

/-- Lines 16-91 of `GenerateJsonSchema`: configuration validation in
source order (missing input, unrecognized draft, non-positive indentation,
odd indentation), then the per-file loop starting from the zero fragment,
then the two additionalProperties policies.  Returns the final merged
fragment before materialization.  `fetch` holds the collaborator's fetch
result for each configured input path, positionally. -/
def generateTree (cfg : Config) (fetch : List FileInput) : Except String Schema :=
  if cfg.input.length = 0 then .error "input flag is required"
  else
    match getSchemaURL cfg.draft with
    | .error e => .error e
    | .ok _ =>
      if cfg.indent ≤ 0 then .error "indentation must be a positive number"
      else if cfg.indent % 2 ≠ 0 then .error "indentation must be an even number"
      else
        match runFiles cfg Schema.empty (cfg.input.zip fetch) with
        | .error e => .error e
        | .ok merged => .ok (applyAPPolicies cfg merged)

/-! ## Observation helpers used by the theorems -/

/-!
`eraseAP` clears the `AdditionalProperties` field of every fragment of a
tree (all `properties` descendants and all `items` descendants alike); it
is the observation that forgets exactly the field `setAdditionalProperties`
is allowed to write.
-/
mutual

def eraseAP : Schema → Schema
  | .mk t p i r ti d iv _ => .mk t (erasePropsAP p) (eraseChildAP i) r ti d iv none

def erasePropsAP : Props → Props
  | .nil => .nil
  | .cons k c rest => .cons k (eraseChildAP c) (erasePropsAP rest)

def eraseChildAP : OSchema → OSchema
  | .none => .none
  | .some s => .some (eraseAP s)

end

/-- One navigation step into a fragment tree: into a named child of
`properties`, or into a named child of the properties of `items`.  These
are exactly the two edges along which `setAdditionalProperties` recurses. -/
inductive Step : Type where
  | prop (key : String)
  | itemsProp (key : String)

/-- Navigate a fragment tree along a list of steps.  Navigation stops on a
missing key, a nil child, or a nil `items`. -/
def getPath : Schema → List Step → Option Schema
  | s, [] => Option.some s
  | s, .prop k :: rest =>
      match s.properties.find? k with
      | Option.some (.some c) => getPath c rest
      | _ => Option.none
  | s, .itemsProp k :: rest =>
      match s.items with
      | .some it =>
          (match it.properties.find? k with
            | Option.some (.some c) => getPath c rest
            | _ => Option.none)
      | .none => Option.none

/-! ## The Schema Materializer

Modelled from the spec: `convertSchemaToMap` and the JSON marshalling are
not part of `pkg/generator.go`; section 4.4 of the specification defines
the materializer as an ordered, deterministic rendering that emits only
the keys relevant to the fragment (metadata only when non-empty, `items`
only when present, `properties`/`required`/`additionalProperties` only
when carried), injects a top-level `$schema` key, and surfaces an internal
inconsistency (a nil child fragment) as an error.  String escaping is not
modelled; key order within an object is the fixed order below.
-/

/-- An opening brace as text. -/
def braceOpen : String := "\x7b"

/-- A closing brace as text. -/
def braceClose : String := "\x7d"

/-- A JSON string literal (escaping not modelled). -/
def jsonQuote (s : String) : String := "\"" ++ s ++ "\""

/-- The indentation prefix at nesting depth `d`. -/
def indentOf (ind : String) (d : Nat) : String :=
  String.join (List.replicate d ind)

/-- One `"key": value` line with its indentation prefix. -/
def mkEntry (pad key val : String) : String :=
  pad ++ jsonQuote key ++ ": " ++ val

/-- Wrap rendered entry lines into a JSON object; `pad` indents the
closing brace. -/
def wrapObj (pad : String) (entries : List String) : String :=
  if entries.isEmpty then braceOpen ++ braceClose
  else braceOpen ++ "\n" ++ String.intercalate ",\n" entries ++ "\n" ++ pad ++ braceClose

/-- A JSON array of string literals, rendered inline. -/
def jsonStringArray (xs : List String) : String :=
  "[" ++ String.intercalate ", " (xs.map jsonQuote) ++ "]"

mutual

def schemaEntries (ind : String) : Nat → Schema → Except String (List String)
  | d, .mk t props items req ti de iv ap =>
      match itemsJson ind d items with
      | .error e => .error e
      | .ok itemsR =>
          match propsJson ind (d + 1) props with
          | .error e => .error e
          | .ok propEntries =>
              let pad := indentOf ind d
              .ok
                ((if iv = "" then [] else [mkEntry pad "$id" (jsonQuote iv)])
                  ++ (if ti = "" then [] else [mkEntry pad "title" (jsonQuote ti)])
                  ++ (if de = "" then [] else [mkEntry pad "description" (jsonQuote de)])
                  ++ (if t = "" then [] else [mkEntry pad "type" (jsonQuote t)])
                  ++ (match itemsR with
                      | Option.none => []
                      | Option.some r => [mkEntry pad "items" r])
                  ++ (match props with
                      | .nil => []
                      | .cons _ _ _ =>
                          [mkEntry pad "properties" (wrapObj pad propEntries)])
                  ++ (if req.isEmpty then []
                      else [mkEntry pad "required" (jsonStringArray req)])
                  ++ (match ap with
                      | Option.none => []
                      | Option.some b =>
                          [mkEntry pad "additionalProperties" (cond b "true" "false")]))

def propsJson (ind : String) : Nat → Props → Except String (List String)
  | _, .nil => .ok []
  | d, .cons k c rest =>
      match c with
      | .none => .error "schema conversion error: nil fragment in properties"
      | .some s =>
          match schemaEntries ind (d + 1) s with
          | .error e => .error e
          | .ok es =>
              match propsJson ind d rest with
              | .error e => .error e
              | .ok others =>
                  .ok (mkEntry (indentOf ind d) k (wrapObj (indentOf ind d) es) :: others)

def itemsJson (ind : String) : Nat → OSchema → Except String (Option String)
  | _, .none => .ok Option.none
  | d, .some s =>
      match schemaEntries ind (d + 1) s with
      | .error e => .error e
      | .ok es => .ok (Option.some (wrapObj (indentOf ind d) es))

end

/-- The complete engine, `GenerateJsonSchema` of `pkg/generator.go`:
validate the configuration, run the per-file loop, apply the
additionalProperties policies (all in `generateTree`), then materialize
the merged fragment with the `$schema` key and the configured indentation
and return the serialized bytes (file writing is the collaborator's job). -/
def GenerateJsonSchema (cfg : Config) (fetch : List FileInput) : Except String String :=
  match generateTree cfg fetch with
  | .error e => .error e
  | .ok merged =>
      match getSchemaURL cfg.draft with
      | .error e => .error e
      | .ok url =>
          let ind := String.mk (List.replicate cfg.indent.toNat ' ')
          match schemaEntries ind 1 merged with
          | .error e => .error e
          | .ok es =>
              .ok (wrapObj "" (mkEntry ind "$schema" (jsonQuote url) :: es) ++ "\n")

/-! ## Concrete fixtures and observation definitions used by the theorems -/

/-- The configuration of the spec's odd-indentation scenario: one input
file, draft 7, indentation 3. -/
def cfgOdd : Config :=
  { input := ["values.yaml"], outputPath := "values.schema.json", draft := 7,
    indent := 3, schemaRoot := ⟨"", "", "", none⟩, schemaAll := ⟨none⟩ }

/-- A small concrete document for witnesses: `name: a, age: 5`. -/
def docDet : YamlMap := .cons "name" (.str "a") (.cons "age" (.intv 5) .nil)

/-- A plain valid configuration for witnesses. -/
def cfgDet : Config :=
  { input := ["values.yaml"], outputPath := "values.schema.json", draft := 7,
    indent := 2, schemaRoot := ⟨"", "", "", none⟩, schemaAll := ⟨none⟩ }

/-- A nested object at a `properties` path, for the C1 witness. -/
def wInner : Schema := .mk "object" .nil .none [] "" "" "" none

/-- A root object holding `wInner` under key `a`, for the C1 witness. -/
def wRoot : Schema := .mk "object" (.cons "a" (.some wInner) .nil) .none [] "" "" "" none

/-- `wInner` after the propagator ran with value `false`. -/
def wInnerAfter : Schema := .mk "object" .nil .none [] "" "" "" (some false)

/-- A scalar fragment inside the items object, for the C1 counterexample. -/
def exInt : Schema := .mk "integer" .nil .none [] "" "" "" none

/-- An object-typed `items` fragment (array of objects). -/
def exItemsObject : Schema :=
  .mk "object" (.cons "x" (.some exInt) .nil) .none [] "" "" "" none

/-- An array fragment whose `items` is `exItemsObject`. -/
def exArray : Schema := .mk "array" .nil (.some exItemsObject) [] "" "" "" none

/-- A root object with one array-of-objects property. -/
def exTree : Schema :=
  .mk "object" (.cons "arr" (.some exArray) .nil) .none ["arr"] "" "" "" none

/-- The type and `AdditionalProperties` of the `items` fragment of the
child stored under `k`. -/
def itemsTypeAndAP (s : Schema) (k : String) : Option (String × Option Bool) :=
  match s.properties.find? k with
  | Option.some (.some a) =>
      (match a.items with
        | .some it => Option.some (it.type, it.additionalProperties)
        | .none => Option.none)
  | _ => Option.none

/-- A configuration with both policies set: root-only `true`, recursive
`false`. -/
def cfgBothAP : Config :=
  { input := ["values.yaml"], outputPath := "values.schema.json", draft := 4,
    indent := 2, schemaRoot := ⟨"", "", "", some true⟩,
    schemaAll := ⟨some false⟩ }

/-- The root `AdditionalProperties` of a successful run. -/
def treeAPOf (r : Except String Schema) : Option Bool :=
  match r with
  | .ok s => s.additionalProperties
  | .error _ => Option.none

/-- An object-typed merged fragment for the C3 witness. -/
def wObj : Schema := .mk "object" .nil .none [] "" "" "" none

/-- The metadata of a fragment agrees with the configured root metadata. -/
def metaEq (cfg : Config) (s : Schema) : Prop :=
  s.title = cfg.schemaRoot.title ∧ s.descr = cfg.schemaRoot.descr ∧
    s.idv = cfg.schemaRoot.idv

/-- A configuration carrying a root title, for C4. -/
def cfgMeta : Config :=
  { input := ["values.yaml"], outputPath := "values.schema.json", draft := 4,
    indent := 2, schemaRoot := ⟨"Values", "", "", none⟩, schemaAll := ⟨none⟩ }

/-- The root title of a successful run. -/
def treeTitleOf (r : Except String Schema) : Option String :=
  match r with
  | .ok s => Option.some s.title
  | .error _ => Option.none

/-- The merged fragment of the C4 witness run (`name: a, age: 5` under
`cfgMeta`). -/
def wMetaSchema : Schema :=
  .mk "object"
    (.cons "name" (.some (.mk "string" .nil .none [] "" "" "" none))
      (.cons "age" (.some (.mk "integer" .nil .none [] "" "" "" none)) .nil))
    .none ["name", "age"] "Values" "" "" none

/-- The keys of a mapping whose value parses as required, in order. -/
def requiredKeys : YamlMap → List String
  | .nil => []
  | .cons k v rest => (if (parseNode v).2 then [k] else []) ++ requiredKeys rest

/-- A mapping with one non-null and one explicitly null value. -/
def docNull : YamlMap := .cons "a" (.intv 1) (.cons "b" Yaml.null .nil)

/-- The concatenation of the per-file required lists of the non-empty
documents in a run, in file order. -/
def docReqs : List (String × FileInput) → List String
  | [] => []
  | (_, FileInput.doc m) :: rest => (parseMap m).2 ++ docReqs rest
  | _ :: rest => docReqs rest

/-- First witness file: `id: 1`. -/
def docW1 : YamlMap := .cons "id" (.intv 1) .nil

/-- Second witness file: `name: x, id: 2` — `id` reappears. -/
def docW2 : YamlMap := .cons "name" (.str "x") (.cons "id" (.intv 2) .nil)

/-- The two-file witness run. -/
def lW5 : List (String × FileInput) :=
  [("a.yaml", FileInput.doc docW1), ("b.yaml", FileInput.doc docW2)]

/-- The aggregate of the C5 witness run. -/
def sW5 : Schema :=
  .mk "object"
    (.cons "id" (.some (.mk "integer" .nil .none [] "" "" "" none))
      (.cons "name" (.some (.mk "string" .nil .none [] "" "" "" none)) .nil))
    .none ["id", "name"] "" "" "" none

/-- A configuration naming the input file `values.yaml`. -/
def cfgC8a : Config :=
  { input := ["values.yaml"], outputPath := "values.schema.json", draft := 4,
    indent := 2, schemaRoot := ⟨"", "", "", none⟩, schemaAll := ⟨none⟩ }

/-- The same configuration but naming the input file `other.yaml`. -/
def cfgC8b : Config :=
  { input := ["other.yaml"], outputPath := "values.schema.json", draft := 4,
    indent := 2, schemaRoot := ⟨"", "", "", none⟩, schemaAll := ⟨none⟩ }

/-! ## Basic lemmas about the propagator -/

mutual

theorem eraseAP_setAP_aux (v : Bool) :
    ∀ s : Schema, eraseAP (setAdditionalProperties v s) = eraseAP s
  | .mk t props .none req ti d iv ap => by
      simp [setAdditionalProperties, eraseAP, eraseChildAP,
        erasePropsAP_setAPProps_aux v props]
  | .mk t props (.some (.mk t' p' i' r' ti' d' iv' ap')) req ti d iv ap => by
      simp [setAdditionalProperties, eraseAP, eraseChildAP,
        erasePropsAP_setAPProps_aux v props, erasePropsAP_setAPProps_aux v p']

theorem erasePropsAP_setAPProps_aux (v : Bool) :
    ∀ p : Props, erasePropsAP (setAPProps v p) = erasePropsAP p
  | .nil => rfl
  | .cons k c rest => by
      simp [setAPProps, erasePropsAP, eraseChildAP_setAPChild_aux v c,
        erasePropsAP_setAPProps_aux v rest]

theorem eraseChildAP_setAPChild_aux (v : Bool) :
    ∀ c : OSchema, eraseChildAP (setAPChild v c) = eraseChildAP c
  | .none => rfl
  | .some s => by simp [setAPChild, eraseChildAP, eraseAP_setAP_aux v s]

end

theorem setAPProps_keys (v : Bool) : ∀ p : Props, (setAPProps v p).keys = p.keys
  | .nil => rfl
  | .cons k c rest => by simp [setAPProps, Props.keys, setAPProps_keys v rest]

theorem setAP_type (v : Bool) (s : Schema) :
    (setAdditionalProperties v s).type = s.type := by
  cases s with
  | mk t props items req ti d iv ap => rfl

theorem setAP_required (v : Bool) (s : Schema) :
    (setAdditionalProperties v s).required = s.required := by
  cases s with
  | mk t props items req ti d iv ap => rfl

theorem setAP_title (v : Bool) (s : Schema) :
    (setAdditionalProperties v s).title = s.title := by
  cases s with
  | mk t props items req ti d iv ap => rfl

theorem setAP_descr (v : Bool) (s : Schema) :
    (setAdditionalProperties v s).descr = s.descr := by
  cases s with
  | mk t props items req ti d iv ap => rfl

theorem setAP_idv (v : Bool) (s : Schema) :
    (setAdditionalProperties v s).idv = s.idv := by
  cases s with
  | mk t props items req ti d iv ap => rfl

theorem setAP_properties (v : Bool) (s : Schema) :
    (setAdditionalProperties v s).properties = setAPProps v s.properties := by
  cases s with
  | mk t props items req ti d iv ap => rfl

theorem setAP_ap (v : Bool) (s : Schema) :
    (setAdditionalProperties v s).additionalProperties =
      (if s.type = "object" then some v else s.additionalProperties) := by
  cases s with
  | mk t props items req ti d iv ap => rfl

/-- C10: `setAdditionalProperties` changes nothing but `AdditionalProperties`
fields.  Erasing every `AdditionalProperties` field in the tree (including
nil `properties` entries and everything below `items`) gives the same tree
before and after the call, and the top-level `Type`, `Required`, `Title`,
`Description`, `ID` fields and the `Properties` key set are unchanged. -/
theorem setAdditionalProperties_frame (s : Schema) (v : Bool) :
    eraseAP (setAdditionalProperties v s) = eraseAP s ∧
    (setAdditionalProperties v s).type = s.type ∧
    (setAdditionalProperties v s).required = s.required ∧
    (setAdditionalProperties v s).title = s.title ∧
    (setAdditionalProperties v s).descr = s.descr ∧
    (setAdditionalProperties v s).idv = s.idv ∧
    (setAdditionalProperties v s).properties.keys = s.properties.keys :=
  ⟨eraseAP_setAP_aux v s, setAP_type v s, setAP_required v s, setAP_title v s,
    setAP_descr v s, setAP_idv v s, by rw [setAP_properties, setAPProps_keys]⟩

/-! ## C6: empty documents are skipped -/

/-- C6: an input file whose parsed document has no root content is skipped:
the loop's outcome over any file list containing it is exactly the outcome
over the same list with that file removed — the aggregate is untouched and
no error arises from it. -/
theorem runFiles_skips_empty_document (cfg : Config) (name : String)
    (post : List (String × FileInput)) :
    ∀ (pre : List (String × FileInput)) (acc : Schema),
      runFiles cfg acc (pre ++ (name, FileInput.emptyDoc) :: post) =
        runFiles cfg acc (pre ++ post)
  | [], acc => by simp [runFiles, processFile]
  | (n, fi) :: rest, acc => by
      cases fi <;>
        simp [runFiles, processFile,
          fun acc => runFiles_skips_empty_document cfg name post rest acc]

/-! ## C7: configuration errors precede all input processing -/

theorem generateTree_config_error (cfg : Config) (fs fs' : List FileInput)
    (h : cfg.input = [] ∨ cfg.indent ≤ 0 ∨ cfg.indent % 2 = 1 ∨
      ∃ e, getSchemaURL cfg.draft = Except.error e) :
    (∃ e, generateTree cfg fs = Except.error e) ∧
      generateTree cfg fs = generateTree cfg fs' := by
  by_cases h1 : cfg.input.length = 0
  · exact ⟨⟨"input flag is required", by simp [generateTree, h1]⟩,
      by simp [generateTree, h1]⟩
  · cases hurl : getSchemaURL cfg.draft with
    | error e =>
        exact ⟨⟨e, by simp [generateTree, h1, hurl]⟩, by simp [generateTree, h1, hurl]⟩
    | ok u =>
        by_cases h2 : cfg.indent ≤ 0
        · exact ⟨⟨"indentation must be a positive number",
            by simp [generateTree, h1, hurl, h2]⟩,
            by simp [generateTree, h1, hurl, h2]⟩
        · by_cases h3 : cfg.indent % 2 = 0
          · exfalso
            rcases h with hin | hind | hodd | ⟨e, he⟩
            · exact h1 (by simp [hin])
            · exact h2 hind
            · omega
            · rw [hurl] at he; exact Except.noConfusion he
          · exact ⟨⟨"indentation must be an even number",
              by simp [generateTree, h1, hurl, h2, h3]⟩,
              by simp [generateTree, h1, hurl, h2, h3]⟩

/-- C7: an empty input list, a non-positive or odd indentation, or an
unrecognized draft identifier makes `GenerateJsonSchema` fail with a
configuration error before any input file is consulted: the run errors and
its outcome is independent of the fetched file contents, so no schema
output is produced. -/
theorem GenerateJsonSchema_config_error (cfg : Config) (fs fs' : List FileInput)
    (h : cfg.input = [] ∨ cfg.indent ≤ 0 ∨ cfg.indent % 2 = 1 ∨
      ∃ e, getSchemaURL cfg.draft = Except.error e) :
    (∃ e, GenerateJsonSchema cfg fs = Except.error e) ∧
      GenerateJsonSchema cfg fs = GenerateJsonSchema cfg fs' := by
  obtain ⟨⟨e, he⟩, heq⟩ := generateTree_config_error cfg fs fs' h
  have he' : generateTree cfg fs' = Except.error e := heq.symm.trans he
  exact ⟨⟨e, by simp [GenerateJsonSchema, he]⟩,
    by simp [GenerateJsonSchema, he, he']⟩

/-- Witness for C7: with indentation 3 the run fails and its outcome does
not depend on the file contents. -/
theorem GenerateJsonSchema_config_error_witness :
    (∃ e, GenerateJsonSchema cfgOdd [FileInput.emptyDoc] = Except.error e) ∧
      GenerateJsonSchema cfgOdd [FileInput.emptyDoc] = GenerateJsonSchema cfgOdd [] :=
  GenerateJsonSchema_config_error cfgOdd _ _ (Or.inr (Or.inr (Or.inl (by decide))))

/-! ## C9: determinism -/

/-- C9: the engine is deterministic — two runs on the same configuration
and the same sequence of fetched file contents produce identical
serialized output.  The embedded pipeline is a pure function of the
configuration and the fetch results; the only iteration-order freedom of
the Go original (map iteration in the propagator) cannot influence the
result, and the materializer fixes the key order. -/
theorem GenerateJsonSchema_deterministic (cfg : Config) (fs fs' : List FileInput)
    (h : fs = fs') : GenerateJsonSchema cfg fs = GenerateJsonSchema cfg fs' := by
  rw [h]

/-- Witness for C9 at a concrete run. -/
theorem GenerateJsonSchema_deterministic_witness :
    GenerateJsonSchema cfgDet [FileInput.doc docDet] =
      GenerateJsonSchema cfgDet [FileInput.doc docDet] :=
  GenerateJsonSchema_deterministic cfgDet _ _ rfl

/-! ## C1: which fragments the propagator reaches -/

theorem setAPProps_find? (v : Bool) : ∀ (p : Props) (k : String),
    (setAPProps v p).find? k = (p.find? k).map (setAPChild v)
  | .nil, _ => rfl
  | .cons k' c rest, k => by
      by_cases h : k' = k <;>
        simp [setAPProps, Props.find?, h, setAPProps_find? v rest k]

theorem getPath_setAP (v : Bool) : ∀ (path : List Step) (s : Schema),
    getPath (setAdditionalProperties v s) path =
      (getPath s path).map (setAdditionalProperties v)
  | [], s => rfl
  | .prop k :: rest, s => by
      simp only [getPath, setAP_properties, setAPProps_find?]
      cases hf : s.properties.find? k with
      | none => simp
      | some c =>
          cases c with
          | none => simp [setAPChild]
          | some cs => simp [setAPChild, getPath_setAP v rest cs]
  | .itemsProp k :: rest, s => by
      cases s with
      | mk t props items req ti d iv ap =>
          cases items with
          | none => simp [getPath, setAdditionalProperties, Schema.items]
          | some it =>
              cases it with
              | mk t' p' i' r' ti' d' iv' ap' =>
                  simp only [getPath, setAdditionalProperties, Schema.items,
                    Schema.properties, setAPProps_find?]
                  cases hf : p'.find? k with
                  | none => simp
                  | some c =>
                      cases c with
                      | none => simp [setAPChild]
                      | some cs => simp [setAPChild, getPath_setAP v rest cs]

/-- C1 (amended): the propagator recursively visits exactly the fragments
reachable through `properties` edges and through the composite
`items.properties` edge.  Every visited object-typed fragment ends with
`AdditionalProperties = value`, and every visited non-object fragment
keeps its `AdditionalProperties` unchanged (in particular unset if it was
unset).  A fragment that is itself the `items` of an array is not visited
and keeps its own `AdditionalProperties` (see the counterexample). -/
theorem setAdditionalProperties_visited (v : Bool) (s t₀ t₁ : Schema)
    (path : List Step)
    (h₀ : getPath s path = Option.some t₀)
    (h₁ : getPath (setAdditionalProperties v s) path = Option.some t₁) :
    t₁.additionalProperties =
      (if t₀.type = "object" then Option.some v else t₀.additionalProperties) := by
  rw [getPath_setAP, h₀] at h₁
  simp only [Option.map_some'] at h₁
  injection h₁ with h₁
  subst h₁
  exact setAP_ap v t₀

/-- Witness for C1: the nested object one `properties` step below the root
ends with `AdditionalProperties = false`. -/
theorem setAdditionalProperties_visited_witness :
    wInnerAfter.additionalProperties =
      (if wInner.type = "object" then Option.some false
        else wInner.additionalProperties) :=
  setAdditionalProperties_visited false wRoot wInner wInnerAfter
    [Step.prop "a"] (by rfl) (by rfl)

/-- C1 counterexample: after `setAdditionalProperties(s, false)` on a tree
holding an array of objects, the object-typed fragment that is the array's
`items` still has `AdditionalProperties` unset — the recursion only
descends into `items.properties`, never visiting the `items` fragment
itself — refuting the claim that every object-typed fragment reachable
through `items` carries `false`. -/
theorem setAdditionalProperties_misses_items_object :
    (setAdditionalProperties false exTree).additionalProperties = some false ∧
    itemsTypeAndAP (setAdditionalProperties false exTree) "arr" =
      Option.some ("object", Option.none) :=
  ⟨rfl, rfl⟩

/-! ## C3: interaction of the two additionalProperties policies -/

/-- C3 counterexample: with the root-only policy `true` and the recursive
policy `false`, a run whose only input is an empty document ends with the
root fragment's `AdditionalProperties` equal to the root-only value
`true`: the merged fragment is the zero fragment, not object-typed, so the
recursive walk does not overwrite the field and the claimed equality with
the recursive value fails. -/
theorem recursive_policy_not_final_on_empty_run :
    cfgBothAP.schemaRoot.additionalProperties = some true ∧
    cfgBothAP.schemaAll.additionalProperties = some false ∧
    treeAPOf (generateTree cfgBothAP [FileInput.emptyDoc]) = some true ∧
    treeAPOf (generateTree cfgBothAP [FileInput.emptyDoc]) ≠ some false :=
  ⟨rfl, rfl, rfl, by decide⟩

/-- C3 (amended): when both policies are configured, the root-only policy
is written to the merged fragment first and the recursive policy runs
second, so whenever the merged fragment is object-typed (the case whenever
at least one non-empty input document was merged) its final
`AdditionalProperties` is the recursive policy's value; only when the
merged fragment is not object-typed (all inputs empty) does the root-only
value persist. -/
theorem applyAPPolicies_recursive_overrides (cfg : Config) (s : Schema)
    (a b : Bool)
    (hroot : cfg.schemaRoot.additionalProperties = some a)
    (hall : cfg.schemaAll.additionalProperties = some b)
    (hobj : s.type = "object") :
    (applyAPPolicies cfg s).additionalProperties = some b := by
  simp only [applyAPPolicies, hroot, hall]
  rw [setAP_ap]
  have ht : (s.withAP (some a)).type = "object" := by
    cases s with
    | mk t props items req ti d iv ap => simpa [Schema.withAP, Schema.type] using hobj
  simp [ht]

/-- Witness for C3: on an object-typed merged fragment the recursive value
`false` wins over the root-only value `true`. -/
theorem applyAPPolicies_recursive_overrides_witness :
    (applyAPPolicies cfgBothAP wObj).additionalProperties = some false :=
  applyAPPolicies_recursive_overrides cfgBothAP wObj true false rfl rfl rfl

/-! ## C4: root metadata comes from the configuration -/

theorem mergeSchemas_meta (b inc : Schema) :
    (mergeSchemas b inc).title = inc.title ∧
    (mergeSchemas b inc).descr = inc.descr ∧
    (mergeSchemas b inc).idv = inc.idv := by
  cases inc with
  | mk t p i r ti d iv ap =>
      simp only [mergeSchemas]
      split
      · exact ⟨rfl, rfl, rfl⟩
      · split
        · exact ⟨rfl, rfl, rfl⟩
        · exact ⟨rfl, rfl, rfl⟩

theorem mergeSchemas_type_object (b inc : Schema) (h : inc.type = "object") :
    (mergeSchemas b inc).type = "object" := by
  cases inc with
  | mk t p i r ti d iv ap =>
      simp only [mergeSchemas]
      split
      · exact h
      · split
        · rfl
        · exact h

theorem withRequired_fields (s : Schema) (r : List String) :
    (s.withRequired r).title = s.title ∧ (s.withRequired r).descr = s.descr ∧
    (s.withRequired r).idv = s.idv ∧ (s.withRequired r).type = s.type ∧
    (s.withRequired r).required = r := by
  cases s with
  | mk t p i r' ti d iv ap => exact ⟨rfl, rfl, rfl, rfl, rfl⟩

theorem withAP_fields (s : Schema) (ap : Option Bool) :
    (s.withAP ap).title = s.title ∧ (s.withAP ap).descr = s.descr ∧
    (s.withAP ap).idv = s.idv ∧ (s.withAP ap).type = s.type := by
  cases s with
  | mk t p i r ti d iv ap' => exact ⟨rfl, rfl, rfl, rfl⟩

theorem stepDoc_meta (cfg : Config) (acc : Schema) (m : YamlMap) :
    metaEq cfg ((mergeSchemas acc (tempOf cfg m)).withRequired
      (uniqueStringAppend (mergeSchemas acc (tempOf cfg m)).required (parseMap m).2)) := by
  obtain ⟨h1, h2, h3⟩ := mergeSchemas_meta acc (tempOf cfg m)
  obtain ⟨w1, w2, w3, _, _⟩ := withRequired_fields (mergeSchemas acc (tempOf cfg m))
    (uniqueStringAppend (mergeSchemas acc (tempOf cfg m)).required (parseMap m).2)
  exact ⟨w1.trans h1, w2.trans h2, w3.trans h3⟩

theorem runFiles_meta_preserved (cfg : Config) :
    ∀ (l : List (String × FileInput)) (acc s : Schema),
      runFiles cfg acc l = .ok s → metaEq cfg acc → metaEq cfg s
  | [], acc, s, h, hm => by
      simp only [runFiles] at h
      injection h with h
      subst h
      exact hm
  | (n, fi) :: rest, acc, s, h, hm => by
      cases fi with
      | unreadable => simp [runFiles, processFile] at h
      | malformed => simp [runFiles, processFile] at h
      | emptyDoc =>
          simp only [runFiles, processFile] at h
          exact runFiles_meta_preserved cfg rest acc s h hm
      | doc m =>
          simp only [runFiles, processFile] at h
          exact runFiles_meta_preserved cfg rest _ s h (stepDoc_meta cfg acc m)

theorem runFiles_meta_of_doc (cfg : Config) :
    ∀ (l : List (String × FileInput)) (acc s : Schema),
      runFiles cfg acc l = .ok s →
      (∃ p ∈ l, ∃ m, p.2 = FileInput.doc m) → metaEq cfg s
  | [], acc, s, h, hd => by simp at hd
  | (n, fi) :: rest, acc, s, h, hd => by
      cases fi with
      | unreadable => simp [runFiles, processFile] at h
      | malformed => simp [runFiles, processFile] at h
      | emptyDoc =>
          simp only [runFiles, processFile] at h
          refine runFiles_meta_of_doc cfg rest acc s h ?_
          rcases hd with ⟨p, hp, m, hm⟩
          rcases List.mem_cons.mp hp with rfl | hp'
          · exact FileInput.noConfusion hm
          · exact ⟨p, hp', m, hm⟩
      | doc m =>
          simp only [runFiles, processFile] at h
          exact runFiles_meta_preserved cfg rest _ s h (stepDoc_meta cfg acc m)

theorem applyAPPolicies_meta (cfg : Config) (s : Schema) :
    (applyAPPolicies cfg s).title = s.title ∧
    (applyAPPolicies cfg s).descr = s.descr ∧
    (applyAPPolicies cfg s).idv = s.idv := by
  unfold applyAPPolicies
  cases hr : cfg.schemaRoot.additionalProperties with
  | none =>
      cases ha : cfg.schemaAll.additionalProperties with
      | none => exact ⟨rfl, rfl, rfl⟩
      | some b => exact ⟨setAP_title b s, setAP_descr b s, setAP_idv b s⟩
  | some a =>
      cases ha : cfg.schemaAll.additionalProperties with
      | none =>
          obtain ⟨h1, h2, h3, _⟩ := withAP_fields s (some a)
          exact ⟨h1, h2, h3⟩
      | some b =>
          obtain ⟨h1, h2, h3, _⟩ := withAP_fields s (some a)
          exact ⟨(setAP_title b _).trans h1, (setAP_descr b _).trans h2,
            (setAP_idv b _).trans h3⟩

theorem generateTree_ok_elim (cfg : Config) (fs : List FileInput) (s : Schema)
    (h : generateTree cfg fs = .ok s) :
    ∃ merged, runFiles cfg Schema.empty (cfg.input.zip fs) = .ok merged ∧
      s = applyAPPolicies cfg merged := by
  unfold generateTree at h
  split at h
  · exact Except.noConfusion h
  · split at h
    · exact Except.noConfusion h
    · split at h
      · exact Except.noConfusion h
      · split at h
        · exact Except.noConfusion h
        · split at h
          · exact Except.noConfusion h
          · rename_i merged hm
            injection h with h
            exact ⟨merged, hm, h.symm⟩

/-- C4 (amended): for every run in which at least one input document is
non-empty, the merged aggregate's `title`, `description` and `id` are the
configuration's root metadata (the per-file fragments carry exactly that
metadata, and every merge takes it from the incoming fragment).  A run
whose inputs are all empty documents leaves the aggregate's metadata empty
(see the counterexample). -/
theorem merged_metadata_from_config (cfg : Config) (fs : List FileInput)
    (s : Schema) (hok : generateTree cfg fs = .ok s)
    (hdoc : ∃ p ∈ cfg.input.zip fs, ∃ m, p.2 = FileInput.doc m) :
    s.title = cfg.schemaRoot.title ∧ s.descr = cfg.schemaRoot.descr ∧
      s.idv = cfg.schemaRoot.idv := by
  obtain ⟨merged, hrun, rfl⟩ := generateTree_ok_elim cfg fs s hok
  have hmeta := runFiles_meta_of_doc cfg (cfg.input.zip fs) Schema.empty merged hrun hdoc
  have happ := applyAPPolicies_meta cfg merged
  exact ⟨happ.1.trans hmeta.1, happ.2.1.trans hmeta.2.1, happ.2.2.trans hmeta.2.2⟩

/-- C4 counterexample: a run whose only input is an empty document leaves
the merged aggregate's title empty even though the configuration's root
metadata carries the title `Values` — no merge ever happens, so the
configuration-sourced metadata is never stamped on the aggregate,
refuting the claim for every run. -/
theorem metadata_missing_on_empty_run :
    cfgMeta.schemaRoot.title = "Values" ∧
    treeTitleOf (generateTree cfgMeta [FileInput.emptyDoc]) = Option.some "" ∧
    treeTitleOf (generateTree cfgMeta [FileInput.emptyDoc]) ≠ Option.some "Values" :=
  ⟨rfl, rfl, by decide⟩

/-- Witness for C4: a run with one non-empty document ends with the
configured metadata on the aggregate. -/
theorem merged_metadata_from_config_witness :
    wMetaSchema.title = cfgMeta.schemaRoot.title ∧
    wMetaSchema.descr = cfgMeta.schemaRoot.descr ∧
    wMetaSchema.idv = cfgMeta.schemaRoot.idv :=
  merged_metadata_from_config cfgMeta [FileInput.doc docDet] wMetaSchema
    (by rfl) ⟨("values.yaml", FileInput.doc docDet),
      List.mem_singleton.mpr rfl, docDet, rfl⟩

/-! ## C2: required-ness is "present with a non-null value" -/

theorem parseNode_isRequired (v : Yaml) : (parseNode v).2 = true ↔ v ≠ Yaml.null := by
  cases v <;> simp [parseNode]

theorem parseMapAux_snd : ∀ (m : YamlMap) (props : Props) (req : List String),
    (parseMapAux props req m).2 = req ++ requiredKeys m
  | .nil, props, req => by simp [parseMapAux, requiredKeys]
  | .cons k v rest, props, req => by
      by_cases h : (parseNode v).2 <;>
        simp [parseMapAux, requiredKeys, h, parseMapAux_snd rest, List.append_assoc]

theorem mem_requiredKeys : ∀ (m : YamlMap) (k : String),
    k ∈ requiredKeys m ↔ ∃ v, (k, v) ∈ m.toList ∧ v ≠ Yaml.null
  | .nil, k => by simp [requiredKeys, YamlMap.toList]
  | .cons k' v' rest, k => by
      simp only [requiredKeys, YamlMap.toList, List.mem_append, List.mem_cons]
      by_cases h : (parseNode v').2 = true
      · have hv' : v' ≠ Yaml.null := (parseNode_isRequired v').mp h
        simp only [if_pos h, List.mem_singleton]
        constructor
        · rintro (rfl | hk)
          · exact ⟨v', Or.inl rfl, hv'⟩
          · obtain ⟨v, hv, hne⟩ := (mem_requiredKeys rest k).mp hk
            exact ⟨v, Or.inr hv, hne⟩
        · rintro ⟨v, hv | hv, hne⟩
          · rw [Prod.mk.injEq] at hv
            exact Or.inl hv.1
          · exact Or.inr ((mem_requiredKeys rest k).mpr ⟨v, hv, hne⟩)
      · have hv' : v' = Yaml.null := by
          by_contra hne
          exact h ((parseNode_isRequired v').mpr hne)
        simp only [if_neg h, List.not_mem_nil, List.nil_append, false_or]
        constructor
        · intro hk
          obtain ⟨v, hv, hne⟩ := (mem_requiredKeys rest k).mp hk
          exact ⟨v, Or.inr hv, hne⟩
        · rintro ⟨v, hv | hv, hne⟩
          · rw [Prod.mk.injEq] at hv
            exact absurd (hv.2.trans hv') hne
          · exact (mem_requiredKeys rest k).mpr ⟨v, hv, hne⟩

theorem find?_setOrAppend : ∀ (p : Props) (k k' : String) (c : OSchema),
    (p.setOrAppend k c).find? k' = if k = k' then Option.some c else p.find? k'
  | .nil, k, k', c => by
      by_cases h : k = k' <;> simp [Props.setOrAppend, Props.find?, h]
  | .cons k₀ c₀ rest, k, k', c => by
      simp only [Props.setOrAppend]
      by_cases h0 : k₀ = k
      · subst h0
        by_cases h1 : k₀ = k'
        · simp [Props.find?, h1]
        · simp [Props.find?, h1]
      · simp only [if_neg h0]
        by_cases h1 : k₀ = k'
        · subst h1
          have hkk : ¬(k = k₀) := fun hh => h0 hh.symm
          simp [Props.find?, hkk]
        · simp [Props.find?, h1, find?_setOrAppend rest k k' c]

theorem mem_keys_of_mem_toList : ∀ (m : YamlMap) (k : String) (v : Yaml),
    (k, v) ∈ m.toList → k ∈ m.keys
  | .nil, k, v, h => by simp [YamlMap.toList] at h
  | .cons k' v' rest, k, v, h => by
      simp only [YamlMap.toList, List.mem_cons] at h
      simp only [YamlMap.keys, List.mem_cons]
      rcases h with h | h
      · rw [Prod.mk.injEq] at h
        exact Or.inl h.1
      · exact Or.inr (mem_keys_of_mem_toList rest k v h)

theorem toList_value_unique : ∀ (m : YamlMap), m.keys.Nodup →
    ∀ (k : String) (v₁ v₂ : Yaml),
      (k, v₁) ∈ m.toList → (k, v₂) ∈ m.toList → v₁ = v₂
  | .nil, _, k, v₁, v₂, h₁, _ => by simp [YamlMap.toList] at h₁
  | .cons k' v' rest, hnd, k, v₁, v₂, h₁, h₂ => by
      simp only [YamlMap.keys, List.nodup_cons] at hnd
      obtain ⟨hk', hndr⟩ := hnd
      simp only [YamlMap.toList, List.mem_cons] at h₁ h₂
      rcases h₁ with h₁ | h₁ <;> rcases h₂ with h₂ | h₂
      · rw [Prod.mk.injEq] at h₁ h₂
        exact h₁.2.trans h₂.2.symm
      · rw [Prod.mk.injEq] at h₁
        exact absurd (h₁.1 ▸ mem_keys_of_mem_toList rest k v₂ h₂) hk'
      · rw [Prod.mk.injEq] at h₂
        exact absurd (h₂.1 ▸ mem_keys_of_mem_toList rest k v₁ h₁) hk'
      · exact toList_value_unique rest hndr k v₁ v₂ h₁ h₂

theorem parseMapAux_find?_skip : ∀ (m : YamlMap) (props : Props)
    (req : List String) (k : String), k ∉ m.keys →
    (parseMapAux props req m).1.find? k = props.find? k
  | .nil, props, req, k, _ => rfl
  | .cons k' v rest, props, req, k, hk => by
      simp only [YamlMap.keys, List.mem_cons] at hk
      push_neg at hk
      obtain ⟨hk1, hk2⟩ := hk
      simp only [parseMapAux]
      rw [parseMapAux_find?_skip rest _ _ k hk2, find?_setOrAppend]
      have hne : ¬(k' = k) := fun hh => hk1 hh.symm
      simp [hne]

theorem parseMapAux_find?_mem : ∀ (m : YamlMap) (props : Props)
    (req : List String) (k : String) (v : Yaml), m.keys.Nodup →
    (k, v) ∈ m.toList →
    (parseMapAux props req m).1.find? k = Option.some (.some (parseNode v).1)
  | .nil, _, _, k, v, _, hmem => by simp [YamlMap.toList] at hmem
  | .cons k' v' rest, props, req, k, v, hnd, hmem => by
      simp only [YamlMap.keys, List.nodup_cons] at hnd
      obtain ⟨hk', hndr⟩ := hnd
      simp only [YamlMap.toList, List.mem_cons] at hmem
      rcases hmem with heq | hmem
      · rw [Prod.mk.injEq] at heq
        obtain ⟨rfl, rfl⟩ := heq
        simp only [parseMapAux]
        rw [parseMapAux_find?_skip rest _ _ k hk', find?_setOrAppend]
        simp
      · simp only [parseMapAux]
        exact parseMapAux_find?_mem rest _ _ k v hndr hmem

/-- C2: for a YAML mapping with well-formed (duplicate-free) keys, a key
is in the inferred fragment's `required` list iff it is present in the
mapping with a non-null value, and a key whose value is explicitly null
still yields a child fragment — of type `null` — while staying out of
`required`. -/
theorem parseMap_required_iff (m : YamlMap) (k : String)
    (hnd : m.keys.Nodup) :
    (k ∈ (parseMap m).2 ↔ ∃ v, (k, v) ∈ m.toList ∧ v ≠ Yaml.null) ∧
    ((k, Yaml.null) ∈ m.toList →
      (parseMap m).1.find? k =
        Option.some (OSchema.some (.mk "null" .nil .none [] "" "" "" none)) ∧
      k ∉ (parseMap m).2) := by
  have hsnd : (parseMap m).2 = requiredKeys m := by
    simpa using parseMapAux_snd m .nil []
  constructor
  · rw [hsnd]
    exact mem_requiredKeys m k
  · intro hmem
    refine ⟨?_, ?_⟩
    · have hfind := parseMapAux_find?_mem m .nil [] k Yaml.null hnd hmem
      simpa [parseMap, parseNode] using hfind
    · rw [hsnd]
      intro hk
      obtain ⟨v, hv, hne⟩ := (mem_requiredKeys m k).mp hk
      exact hne (toList_value_unique m hnd k v Yaml.null hv hmem)

/-- Witness for C2 on `a: 1, b: null` at key `b`. -/
theorem parseMap_required_iff_witness :
    ("b" ∈ (parseMap docNull).2 ↔
      ∃ v, ("b", v) ∈ docNull.toList ∧ v ≠ Yaml.null) ∧
    (("b", Yaml.null) ∈ docNull.toList →
      (parseMap docNull).1.find? "b" =
        Option.some (OSchema.some (.mk "null" .nil .none [] "" "" "" none)) ∧
      "b" ∉ (parseMap docNull).2) :=
  parseMap_required_iff docNull "b" (by decide)

/-! ## C5: the aggregate required list -/

theorem mem_uniqueStringAppend : ∀ (b a : List String) (x : String),
    x ∈ uniqueStringAppend a b ↔ x ∈ a ∨ x ∈ b
  | [], a, x => by simp [uniqueStringAppend]
  | y :: ys, a, x => by
      have IH := mem_uniqueStringAppend ys (if y ∈ a then a else a ++ [y]) x
      simp only [uniqueStringAppend, List.foldl_cons] at IH ⊢
      rw [IH]
      by_cases h : y ∈ a
      · simp only [if_pos h, List.mem_cons]
        constructor
        · rintro (hx | hx)
          · exact Or.inl hx
          · exact Or.inr (Or.inr hx)
        · rintro (hx | hx)
          · exact Or.inl hx
          · rcases hx with rfl | hx
            · exact Or.inl h
            · exact Or.inr hx
      · simp only [if_neg h, List.mem_append, List.mem_singleton, List.mem_cons]
        tauto

theorem uniqueStringAppend_subset_noop : ∀ (b a : List String),
    (∀ x ∈ b, x ∈ a) → uniqueStringAppend a b = a
  | [], _, _ => rfl
  | y :: ys, a, h => by
      simp only [uniqueStringAppend, List.foldl_cons]
      rw [if_pos (h y (List.mem_cons_self y ys))]
      exact uniqueStringAppend_subset_noop ys a
        (fun x hx => h x (List.mem_cons_of_mem _ hx))

theorem uniqueStringAppend_nodup : ∀ (b a : List String),
    a.Nodup → (uniqueStringAppend a b).Nodup
  | [], _, h => h
  | y :: ys, a, h => by
      simp only [uniqueStringAppend, List.foldl_cons]
      by_cases hy : y ∈ a
      · rw [if_pos hy]
        exact uniqueStringAppend_nodup ys a h
      · rw [if_neg hy]
        refine uniqueStringAppend_nodup ys (a ++ [y]) ?_
        refine h.append (List.nodup_singleton y) ?_
        intro x hx hxy
        rw [List.mem_singleton] at hxy
        exact hy (hxy ▸ hx)

theorem uniqueStringAppend_fresh : ∀ (b a : List String),
    b.Nodup → (∀ x ∈ b, x ∉ a) → uniqueStringAppend a b = a ++ b
  | [], a, _, _ => by simp [uniqueStringAppend]
  | y :: ys, a, hnd, hfr => by
      simp only [List.nodup_cons] at hnd
      simp only [uniqueStringAppend, List.foldl_cons]
      rw [if_neg (hfr y (List.mem_cons_self y ys))]
      have := uniqueStringAppend_fresh ys (a ++ [y]) hnd.2 ?_
      · simpa [List.append_assoc] using this
      · intro x hx
        simp only [List.mem_append, List.mem_singleton]
        rintro (hxa | rfl)
        · exact hfr x (List.mem_cons_of_mem _ hx) hxa
        · exact hnd.1 hx

theorem uniqueStringAppend_nil_of_nodup (b : List String) (h : b.Nodup) :
    uniqueStringAppend [] b = b := by
  simpa using uniqueStringAppend_fresh b [] h (by simp)

theorem uniqueStringAppend_append (a b c : List String) :
    uniqueStringAppend a (b ++ c) = uniqueStringAppend (uniqueStringAppend a b) c := by
  simp [uniqueStringAppend, List.foldl_append]

theorem uniqueStringAppend_self_noop (a b : List String) :
    uniqueStringAppend (uniqueStringAppend a b) b = uniqueStringAppend a b :=
  uniqueStringAppend_subset_noop b _
    (fun x hx => (mem_uniqueStringAppend b a x).mpr (Or.inr hx))

theorem requiredKeys_sublist : ∀ m : YamlMap, List.Sublist (requiredKeys m) m.keys
  | .nil => List.Sublist.refl []
  | .cons k v rest => by
      simp only [requiredKeys, YamlMap.keys]
      by_cases h : (parseNode v).2 = true
      · rw [if_pos h]
        exact (requiredKeys_sublist rest).cons₂ k
      · rw [if_neg h]
        simp only [List.nil_append]
        exact (requiredKeys_sublist rest).cons k

theorem parseMap_required_nodup (m : YamlMap) (h : m.keys.Nodup) :
    (parseMap m).2.Nodup := by
  have hs : (parseMap m).2 = requiredKeys m := by simpa using parseMapAux_snd m .nil []
  rw [hs]
  exact h.sublist (requiredKeys_sublist m)

theorem isEmpty_type_blank (s : Schema) (h : s.isEmpty = true) : s.type = "" := by
  cases s with
  | mk t p i r ti d iv ap =>
      simp only [Schema.isEmpty, Bool.and_eq_true, beq_iff_eq] at h
      exact h.1.1.1.1.1.1.1

theorem mergeSchemas_of_empty (b inc : Schema) (h : b.isEmpty = true) :
    mergeSchemas b inc = inc := by
  cases inc with
  | mk t p i r ti d iv ap => simp [mergeSchemas, h]

theorem mergeSchemas_required_object (b inc : Schema) (hbe : b.isEmpty = false)
    (hb : b.type = "object") (hinc : inc.type = "object") :
    (mergeSchemas b inc).required = uniqueStringAppend b.required inc.required := by
  cases inc with
  | mk t p i r ti d iv ap =>
      simp only [Schema.type] at hinc
      simp only [mergeSchemas, hbe]
      rw [if_neg (by simp), if_pos ⟨hb, hinc⟩]
      rfl

theorem runFiles_required_inv (cfg : Config) :
    ∀ (l : List (String × FileInput)) (acc s : Schema),
      (∀ p ∈ l, ∀ m, p.2 = FileInput.doc m → (YamlMap.keys m).Nodup) →
      acc.required.Nodup →
      (acc = Schema.empty ∨ acc.type = "object") →
      runFiles cfg acc l = .ok s →
      s.required = uniqueStringAppend acc.required (docReqs l) ∧ s.required.Nodup
  | [], acc, s, _, hnd, _, h => by
      simp only [runFiles] at h
      injection h with h
      subst h
      exact ⟨by simp [docReqs, uniqueStringAppend], hnd⟩
  | (n, fi) :: rest, acc, s, hk, hnd, hobj, h => by
      cases fi with
      | unreadable => simp [runFiles, processFile] at h
      | malformed => simp [runFiles, processFile] at h
      | emptyDoc =>
          simp only [runFiles, processFile] at h
          have IH := runFiles_required_inv cfg rest acc s
            (fun p hp => hk p (List.mem_cons_of_mem _ hp)) hnd hobj h
          simpa [docReqs] using IH
      | doc m =>
          simp only [runFiles, processFile] at h
          have hrm : (YamlMap.keys m).Nodup :=
            hk (n, FileInput.doc m) (List.mem_cons_self _ _) m rfl
          have hr : (parseMap m).2.Nodup := parseMap_required_nodup m hrm
          have hw := withRequired_fields (mergeSchemas acc (tempOf cfg m))
            (uniqueStringAppend (mergeSchemas acc (tempOf cfg m)).required (parseMap m).2)
          rcases hobj with rfl | hobjt
          · -- first merge: the base is the zero fragment
            have hme : mergeSchemas Schema.empty (tempOf cfg m) = tempOf cfg m :=
              mergeSchemas_of_empty _ _ rfl
            rw [hme] at h hw
            have hreq : ((tempOf cfg m).withRequired
                (uniqueStringAppend (tempOf cfg m).required (parseMap m).2)).required =
                (parseMap m).2 := by
              rw [hw.2.2.2.2]
              exact uniqueStringAppend_subset_noop _ _ (fun x hx => hx)
            have htype : ((tempOf cfg m).withRequired
                (uniqueStringAppend (tempOf cfg m).required (parseMap m).2)).type =
                "object" := hw.2.2.2.1
            have IH := runFiles_required_inv cfg rest _ s
              (fun p hp => hk p (List.mem_cons_of_mem _ hp))
              (by rw [hreq]; exact hr) (Or.inr htype) h
            rw [hreq] at IH
            refine ⟨?_, IH.2⟩
            rw [IH.1]
            have he : (Schema.empty).required = [] := rfl
            rw [he]
            simp only [docReqs]
            rw [uniqueStringAppend_append, uniqueStringAppend_nil_of_nodup _ hr]
          · -- later merges: the base is object-typed
            have hbe : acc.isEmpty = false := by
              cases hb : acc.isEmpty
              · rfl
              · exact absurd (isEmpty_type_blank acc hb ▸ hobjt) (by simp)
            have hmr : (mergeSchemas acc (tempOf cfg m)).required =
                uniqueStringAppend acc.required (parseMap m).2 :=
              mergeSchemas_required_object acc (tempOf cfg m) hbe hobjt rfl
            have hreq : ((mergeSchemas acc (tempOf cfg m)).withRequired
                (uniqueStringAppend (mergeSchemas acc (tempOf cfg m)).required
                  (parseMap m).2)).required =
                uniqueStringAppend acc.required (parseMap m).2 := by
              rw [hw.2.2.2.2, hmr]
              exact uniqueStringAppend_self_noop _ _
            have htype : ((mergeSchemas acc (tempOf cfg m)).withRequired
                (uniqueStringAppend (mergeSchemas acc (tempOf cfg m)).required
                  (parseMap m).2)).type = "object" := by
              rw [hw.2.2.2.1]
              exact mergeSchemas_type_object acc (tempOf cfg m) rfl
            have IH := runFiles_required_inv cfg rest _ s
              (fun p hp => hk p (List.mem_cons_of_mem _ hp))
              (by rw [hreq]; exact uniqueStringAppend_nodup _ _ hnd)
              (Or.inr htype) h
            rw [hreq] at IH
            refine ⟨?_, IH.2⟩
            rw [IH.1]
            simp only [docReqs]
            rw [uniqueStringAppend_append]

/-- C5: after every successful sequence of per-file merges (with each
input mapping carrying well-formed, duplicate-free keys), the aggregate's
`required` list has no duplicates and equals the first-occurrence
deduplication of the per-file required lists concatenated in file order —
a name already present is neither moved nor re-appended by later files. -/
theorem runFiles_required_dedup_firstSeen (cfg : Config)
    (l : List (String × FileInput)) (s : Schema)
    (hk : ∀ p ∈ l, ∀ m, p.2 = FileInput.doc m → (YamlMap.keys m).Nodup)
    (h : runFiles cfg Schema.empty l = .ok s) :
    s.required.Nodup ∧ s.required = uniqueStringAppend [] (docReqs l) := by
  obtain ⟨h1, h2⟩ := runFiles_required_inv cfg l Schema.empty s hk
    (by simp [Schema.empty, Schema.required]) (Or.inl rfl) h
  exact ⟨h2, h1⟩

/-- Witness for C5: two files sharing the key `id` produce the aggregate
required list `[id, name]`, duplicate-free and in first-seen order. -/
theorem runFiles_required_dedup_firstSeen_witness :
    sW5.required.Nodup ∧ sW5.required = uniqueStringAppend [] (docReqs lW5) :=
  runFiles_required_dedup_firstSeen cfgDet lW5 sW5
    (by
      intro p hp m hm
      rcases List.mem_cons.mp hp with rfl | hp'
      · cases hm
        decide
      · rcases List.mem_cons.mp hp' with rfl | hp''
        · cases hm
          decide
        · simp at hp'')
    (by rfl)

/-! ## C8: input errors abort the run -/

theorem runFiles_bad_error (cfg : Config) :
    ∀ (l : List (String × FileInput)) (acc : Schema),
      (∃ p ∈ l, p.2 = FileInput.unreadable ∨ p.2 = FileInput.malformed) →
      ∃ e, runFiles cfg acc l = .error e ∧
        (e = "error reading YAML file(s)" ∨ e = "error unmarshaling YAML")
  | [], acc, hbad => by simp at hbad
  | (n, fi) :: rest, acc, hbad => by
      cases fi with
      | unreadable =>
          exact ⟨"error reading YAML file(s)", by simp [runFiles, processFile],
            Or.inl rfl⟩
      | malformed =>
          exact ⟨"error unmarshaling YAML", by simp [runFiles, processFile],
            Or.inr rfl⟩
      | emptyDoc =>
          simp only [runFiles, processFile]
          refine runFiles_bad_error cfg rest acc ?_
          rcases hbad with ⟨p, hp, hb⟩
          rcases List.mem_cons.mp hp with rfl | hp'
          · rcases hb with hb | hb <;> exact FileInput.noConfusion hb
          · exact ⟨p, hp', hb⟩
      | doc m =>
          simp only [runFiles, processFile]
          refine runFiles_bad_error cfg rest _ ?_
          rcases hbad with ⟨p, hp, hb⟩
          rcases List.mem_cons.mp hp with rfl | hp'
          · rcases hb with hb | hb <;> exact FileInput.noConfusion hb
          · exact ⟨p, hp', hb⟩

/-- C8 (amended): on a validated configuration, an unreadable input or a
malformed YAML document aborts the whole run — no schema output is
emitted — but the surfaced error is one of the two fixed generic messages
of `generator.go` (`error reading YAML file(s)` / `error unmarshaling
YAML`); the failing file is not named in it (see the counterexample). -/
theorem input_error_aborts (cfg : Config) (fs : List FileInput)
    (h1 : cfg.input.length ≠ 0)
    (h2 : ∃ u, getSchemaURL cfg.draft = .ok u)
    (h3 : ¬cfg.indent ≤ 0)
    (h4 : cfg.indent % 2 = 0)
    (hbad : ∃ p ∈ cfg.input.zip fs,
      p.2 = FileInput.unreadable ∨ p.2 = FileInput.malformed) :
    ∃ e, GenerateJsonSchema cfg fs = .error e ∧
      (e = "error reading YAML file(s)" ∨ e = "error unmarshaling YAML") := by
  obtain ⟨u, hu⟩ := h2
  obtain ⟨e, he, hor⟩ := runFiles_bad_error cfg (cfg.input.zip fs) Schema.empty hbad
  have ht : generateTree cfg fs = .error e := by
    simp [generateTree, h1, hu, h3, h4, he]
  exact ⟨e, by simp [GenerateJsonSchema, ht], hor⟩

/-- C8 counterexample: an unreadable input aborts the run, but the
surfaced error is the constant string `error reading YAML file(s)` of line
44 of `generator.go` — identical for two differently-named input files and
not containing the failing file's name — refuting the claim that the
surfaced error names the specific file. -/
theorem input_error_does_not_name_file :
    GenerateJsonSchema cfgC8a [FileInput.unreadable] =
      .error "error reading YAML file(s)" ∧
    GenerateJsonSchema cfgC8b [FileInput.unreadable] =
      .error "error reading YAML file(s)" ∧
    ¬List.IsInfix "values.yaml".toList "error reading YAML file(s)".toList ∧
    ¬List.IsInfix "other.yaml".toList "error reading YAML file(s)".toList :=
  ⟨rfl, rfl, by decide, by decide⟩

/-- Witness for C8 (amended) at a malformed input file. -/
theorem input_error_aborts_witness :
    ∃ e, GenerateJsonSchema cfgC8a [FileInput.malformed] = .error e ∧
      (e = "error reading YAML file(s)" ∨ e = "error unmarshaling YAML") :=
  input_error_aborts cfgC8a [FileInput.malformed] (by decide)
    ⟨"http://json-schema.org/draft-04/schema#", rfl⟩ (by decide) (by decide)
    ⟨("values.yaml", FileInput.malformed), List.mem_singleton.mpr rfl, Or.inr rfl⟩

end HelmSchema
